import Mathlib

/-!
A verification development for the UBI (Unsorted Block Image) core, as
declared in `drivers/mtd/ubi/ubi.h`.  The header provides the constants,
data-structure layout and the inline helpers (`ubi_ro_mode`,
`ubi_io_read_data`, `ubi_io_write_data`, `vol_id2idx`, `idx2vol_id`);
the behaviour of the compiled units (eba.c, wl.c, io.c) is modelled from
the specification where noted.
-/

namespace Ubi

/-! Constants taken verbatim from ubi.h. -/

/-- Marker in the EBA table meaning that the LEB is unmapped
(`#define UBI_LEB_UNMAPPED -1`, ubi.h line 75). -/
def UBI_LEB_UNMAPPED : Int := -1

/-- How many times UBI re-tries an I/O operation
(`#define UBI_IO_RETRIES 3`, ubi.h line 81). -/
def UBI_IO_RETRIES : Nat := 3

/-- Length of the protection queue, equivalently the number of global erase
cycles PEBs are protected from the wear-leveling worker
(`#define UBI_PROT_QUEUE_LEN 10`, ubi.h line 88). -/
def UBI_PROT_QUEUE_LEN : Nat := 10

/-- The volume ID / LEB number / erase counter is unknown
(`#define UBI_UNKNOWN -1`, ubi.h line 91). -/
def UBI_UNKNOWN : Int := -1

/-- Error codes returned by the I/O sub-system, from the anonymous enum at
ubi.h lines 117-123.  A fully successful read returns 0. -/
def UBI_IO_FF : Nat := 1

/-- See `UBI_IO_FF`; ubi.h line 119. -/
def UBI_IO_FF_BITFLIPS : Nat := 2

/-- See `UBI_IO_FF`; ubi.h line 120. -/
def UBI_IO_BAD_HDR : Nat := 3

/-- See `UBI_IO_FF`; ubi.h line 121. -/
def UBI_IO_BAD_HDR_EBADMSG : Nat := 4

/-- See `UBI_IO_FF`; ubi.h line 122. -/
def UBI_IO_BITFLIPS : Nat := 5

/-- Linux errno values used by the modelled operations (returned negated, as
the kernel code does). -/
def EIO_errno : Int := 5

/-- Errno: no space left on device. -/
def ENOSPC : Int := 28

/-- Errno: read-only file system. -/
def EROFS : Int := 30

/-! Volume-table index helpers (ubi.h lines 1129-1153).

`UBI_INTERNAL_VOL_START` is defined in ubi-media.h, which is not under
src/, so the macro's value is a parameter `internal_vol_start` here; every
theorem about these helpers quantifies over it. -/

/-- The one field of `struct ubi_device` (ubi.h line 520) that the
volume-table index helpers read: `vtbl_slots`, the number of slots available
in the volume table. -/
structure VtblDev where
  vtbl_slots : Int

/-- Embedding of `vol_id2idx` (ubi.h lines 1134-1140): get table index by
volume ID. -/
def vol_id2idx (internal_vol_start : Int) (ubi : VtblDev) (vol_id : Int) : Int :=
  if vol_id ≥ internal_vol_start then
    vol_id - internal_vol_start + ubi.vtbl_slots
  else
    vol_id

/-- Embedding of `idx2vol_id` (ubi.h lines 1147-1153): get volume ID by table
index. -/
def idx2vol_id (internal_vol_start : Int) (ubi : VtblDev) (idx : Int) : Int :=
  if idx ≥ ubi.vtbl_slots then
    idx - ubi.vtbl_slots + internal_vol_start
  else
    idx

/-! Low-level I/O (ubi.h lines 1083-1114).

`ubi_io_read` / `ubi_io_write` are only declared in ubi.h (lines 935-938,
io.c is not under src/), so the raw flash is modelled from the spec as a
byte map per physical eraseblock; the `_data` wrappers below are embedded
from the inline definitions in ubi.h. -/

/-- Modelled from the spec: the fields of `struct ubi_device` the low-level
I/O helpers use.  `leb_start` (ubi.h line 593) is the starting offset of
logical eraseblocks within physical eraseblocks; `flash` maps a PEB number
and a byte offset inside that PEB to the byte stored there (io.c is not
under src/). -/
structure IoDev where
  leb_start : Nat
  flash : Nat → Nat → Nat

/-- Modelled from the spec: `ubi_io_read` (declared at ubi.h lines 935-936,
io.c not under src/) returns the `len` bytes of PEB `pnum` starting at byte
offset `offset`. -/
def ubi_io_read (ubi : IoDev) (pnum offset len : Nat) : List Nat :=
  (List.range len).map (fun i => ubi.flash pnum (offset + i))

/-- Modelled from the spec: `ubi_io_write` (declared at ubi.h lines 937-938,
io.c not under src/) stores `buf` into PEB `pnum` starting at byte offset
`offset`. -/
def ubi_io_write (ubi : IoDev) (buf : List Nat) (pnum offset : Nat) : IoDev :=
  { ubi with
    flash := fun p o =>
      if p = pnum ∧ offset ≤ o ∧ o < offset + buf.length then
        buf.getD (o - offset) 0
      else
        ubi.flash p o }

/-- Embedding of `ubi_io_read_data` (ubi.h lines 1088-1093): equivalent to
`ubi_io_read`, but `offset` is relative to the beginning of the logical
eraseblock, not of the physical eraseblock. -/
def ubi_io_read_data (ubi : IoDev) (pnum offset len : Nat) : List Nat :=
  ubi_io_read ubi pnum (offset + ubi.leb_start) len

/-- Embedding of `ubi_io_write_data` (ubi.h lines 1109-1114): equivalent to
`ubi_io_write`, but `offset` is relative to the beginning of the logical
eraseblock. -/
def ubi_io_write_data (ubi : IoDev) (buf : List Nat) (pnum offset : Nat) : IoDev :=
  ubi_io_write ubi buf pnum (offset + ubi.leb_start)

/-! Read-result classification (ubi.h lines 100-123; io.c is not under
src/, so the classification policy is modelled from the spec). -/

/-- The categories a UBI I/O read is classified into: the five codes of the
ubi.h enum (lines 117-123) plus plain success. -/
inductive IoReadResult where
  | ok
  | ff
  | ff_bitflips
  | bad_hdr
  | bad_hdr_ebadmsg
  | bitflips
deriving DecidableEq, Fintype

/-- Numeric code of each read classification, matching the ubi.h enum
(lines 117-123); a fully successful read returns 0. -/
def ioResultCode : IoReadResult → Nat
  | .ok => 0
  | .ff => UBI_IO_FF
  | .ff_bitflips => UBI_IO_FF_BITFLIPS
  | .bad_hdr => UBI_IO_BAD_HDR
  | .bad_hdr_ebadmsg => UBI_IO_BAD_HDR_EBADMSG
  | .bitflips => UBI_IO_BITFLIPS

/-- Outcome of the raw MTD read underneath a UBI read, after the bounded
retries: fully clean, corrected bit-flips (EUCLEAN), or an uncorrectable
ECC error (EBADMSG). -/
inductive MtdReadStatus where
  | clean
  | bitflip
  | ebadmsg
deriving DecidableEq

/-- Modelled from the spec: the classification policy of the I/O sub-system
(io.c is not under src/).  Per ubi.h lines 103-110 and spec section 4.1: an
all-0xFF region reads as `ff`, or as `ff_bitflips` when the MTD driver also
reported a data-integrity problem (in particular an uncorrectable EBADMSG
error); a region whose header does not validate is `bad_hdr`, or
`bad_hdr_ebadmsg` under EBADMSG; a valid read with a non-clean MTD outcome
is `bitflips` (the caller schedules scrubbing). -/
def classify_io_read (st : MtdReadStatus) (buf : List Nat) (hdr_valid : Bool) :
    IoReadResult :=
  if buf.all (fun b => b == 0xFF) then
    match st with
    | .clean => .ff
    | _ => .ff_bitflips
  else if hdr_valid then
    match st with
    | .clean => .ok
    | _ => .bitflips
  else
    match st with
    | .ebadmsg => .bad_hdr_ebadmsg
    | _ => .bad_hdr

/-- Modelled from the spec: which classifications the caller treats as hard
errors.  `ff_bitflips` is not an error: the region is treated as empty. -/
def io_result_is_error : IoReadResult → Bool
  | .bad_hdr => true
  | .bad_hdr_ebadmsg => true
  | _ => false

/-- Modelled from the spec: `ff` and `ff_bitflips` are treated as an empty
(erased) region. -/
def io_result_treated_empty : IoReadResult → Bool
  | .ff => true
  | .ff_bitflips => true
  | _ => false

/-- Modelled from the spec: classifications after which the caller must
schedule the PEB for scrubbing. -/
def io_result_needs_scrub : IoReadResult → Bool
  | .ff_bitflips => true
  | .bitflips => true
  | _ => false

/-! The EBA sub-system (spec section 4.4).

eba.c is not under src/ (ubi.h lines 879-901 only declare its entry
points), so the operations below are modelled from the spec.  The state
carries the fields of `struct ubi_device` and `struct ubi_volume` that the
EBA operations touch: `ro_mode` (ubi.h line 591), `global_sqnum` (line
542), the per-volume `eba_tbl` (line 339), the data area of the flash, the
VID headers, and the WL free / pending-erase pools the EBA draws from and
hands back to. -/

/-- Modelled from the spec: the state threaded through the EBA operations.
`flash pnum off` is the byte at offset `off` of the data area of PEB
`pnum`; `vid pnum` is the `(lnum, sqnum)` recorded in the PEB's VID header,
if one was written; `free` is the WL pool of erased PEBs ready for
allocation and `erase_pending` the PEBs handed back for erasure. -/
structure EbaState where
  ro_mode : Int
  global_sqnum : Nat
  eba_tbl : List Int
  flash : Nat → Nat → Nat
  vid : Nat → Option (Nat × Nat)
  free : List Nat
  erase_pending : List Nat

/-- Embedding of `ubi_ro_mode` (ubi.h lines 1120-1127): switch to read-only
mode; a no-op when the latch is already set. -/
def ubi_ro_mode (ubi : EbaState) : EbaState :=
  if ubi.ro_mode = 0 then { ubi with ro_mode := 1 } else ubi

/-- Modelled from the spec: `ubi_next_sqnum` (declared at ubi.h line 899,
eba.c not under src/) atomically increments `global_sqnum` and returns it.
The field is a 64-bit counter in the source; wraparound is unreachable in a
session, so it is modelled as an unbounded natural. -/
def ubi_next_sqnum (ubi : EbaState) : Nat × EbaState :=
  (ubi.global_sqnum + 1, { ubi with global_sqnum := ubi.global_sqnum + 1 })

/-- The device state after `n` calls of `ubi_next_sqnum`. -/
def sq_iter (ubi : EbaState) : Nat → EbaState
  | 0 => ubi
  | n + 1 => (ubi_next_sqnum (sq_iter ubi n)).2

/-- The value returned by the `(n+1)`-st call of `ubi_next_sqnum`. -/
def sq_call_value (ubi : EbaState) (n : Nat) : Nat :=
  (ubi_next_sqnum (sq_iter ubi n)).1

/-- Modelled from the spec: a freshly built EBA table has `reserved_pebs`
entries, all unmapped (spec section 3, EBA table). -/
def eba_tbl_init (reserved_pebs : Nat) : List Int :=
  List.replicate reserved_pebs UBI_LEB_UNMAPPED

/-- Wellformedness of an EBA table: each entry is either a physical
eraseblock number (non-negative) or the sentinel `UBI_LEB_UNMAPPED`. -/
def eba_tbl_wf (tbl : List Int) : Prop :=
  ∀ e ∈ tbl, 0 ≤ e ∨ e = UBI_LEB_UNMAPPED

/-- Modelled from the spec: `ubi_eba_read_leb` (declared at ubi.h lines
888-889, eba.c not under src/).  Looks up `eba_tbl[lnum]`; if the LEB is
unmapped the buffer is filled with 0xFF, otherwise the data is read from
the mapped PEB. -/
def ubi_eba_read_leb (st : EbaState) (lnum offset len : Nat) :
    Except Int (List Nat) :=
  if st.eba_tbl.getD lnum UBI_LEB_UNMAPPED = UBI_LEB_UNMAPPED then
    Except.ok (List.replicate len 0xFF)
  else
    Except.ok ((List.range len).map
      (fun i => st.flash (st.eba_tbl.getD lnum UBI_LEB_UNMAPPED).toNat (offset + i)))

/-- Modelled from the spec: `ubi_eba_unmap_leb` (declared at ubi.h lines
886-887, eba.c not under src/).  A write path: returns EROFS under the
read-only latch; otherwise sets `eba_tbl[lnum] = UBI_LEB_UNMAPPED` and
hands the previously mapped PEB, if any, back for erasure.  Succeeds even
if the LEB was already unmapped. -/
def ubi_eba_unmap_leb (st : EbaState) (lnum : Nat) : EbaState × Except Int Unit :=
  if st.ro_mode ≠ 0 then
    (st, Except.error (-EROFS))
  else if st.eba_tbl.getD lnum UBI_LEB_UNMAPPED = UBI_LEB_UNMAPPED then
    (st, Except.ok ())
  else
    ({ st with
        eba_tbl := st.eba_tbl.set lnum UBI_LEB_UNMAPPED,
        erase_pending :=
          st.erase_pending ++ [(st.eba_tbl.getD lnum UBI_LEB_UNMAPPED).toNat] },
     Except.ok ())

/-- Fault injected into a modelled EBA write operation: no fault, failure
of the WL allocation, failure of the VID-header write, or failure of the
data write after `written` bytes reached the flash. -/
inductive IoFault where
  | ok
  | get_peb
  | write_vid
  | write_data (written : Nat)
deriving DecidableEq

/-- Store `buf` at the start of the data area of PEB `pnum`. -/
def flash_write (f : Nat → Nat → Nat) (pnum : Nat) (buf : List Nat) :
    Nat → Nat → Nat :=
  fun p o => if p = pnum ∧ o < buf.length then buf.getD o 0xFF else f p o

/-- Modelled from the spec: `ubi_eba_atomic_leb_change` (declared at ubi.h
lines 894-895, eba.c not under src/).  Allocates a fresh PEB, draws a new
sequence number, writes the VID header and the data completely, and only
then swaps the EBA-table entry; the previously mapped PEB is released after
the swap.  A failure before the swap recycles the fresh PEB and leaves the
table untouched. -/
def ubi_eba_atomic_leb_change (st : EbaState) (lnum : Nat) (buf : List Nat)
    (fault : IoFault) : EbaState × Except Int Unit :=
  if st.ro_mode ≠ 0 then
    (st, Except.error (-EROFS))
  else
    match fault, st.free with
    | .get_peb, _ => (st, Except.error (-ENOSPC))
    | _, [] => (st, Except.error (-ENOSPC))
    | f, pnum :: rest =>
      let (sq, st1) := ubi_next_sqnum { st with free := rest }
      match f with
      | .write_vid =>
        ({ st1 with erase_pending := st1.erase_pending ++ [pnum] },
         Except.error (-EIO_errno))
      | .write_data written =>
        ({ st1 with
            vid := Function.update st1.vid pnum (some (lnum, sq)),
            flash := flash_write st1.flash pnum (buf.take written),
            erase_pending := st1.erase_pending ++ [pnum] },
         Except.error (-EIO_errno))
      | _ =>
        let old := st.eba_tbl.getD lnum UBI_LEB_UNMAPPED
        ({ st1 with
            vid := Function.update st1.vid pnum (some (lnum, sq)),
            flash := flash_write st1.flash pnum buf,
            eba_tbl := st.eba_tbl.set lnum (Int.ofNat pnum),
            erase_pending :=
              st1.erase_pending ++
                (if old = UBI_LEB_UNMAPPED then [] else [old.toNat]) },
         Except.ok ())

/-- Modelled from the spec: `ubi_eba_write_leb` (declared at ubi.h lines
890-891, eba.c not under src/).  Per spec sections 3 and 4.4: obtain a new
PEB from WL, write a VID header with the next sequence number, write the
data at `offset`, then swap `eba_tbl[lnum]` to the new PEB and release the
old one; on failure the previous mapping is preserved. -/
def ubi_eba_write_leb (st : EbaState) (lnum : Nat) (buf : List Nat)
    (offset : Nat) (fault : IoFault) : EbaState × Except Int Unit :=
  if st.ro_mode ≠ 0 then
    (st, Except.error (-EROFS))
  else
    match fault, st.free with
    | .get_peb, _ => (st, Except.error (-ENOSPC))
    | _, [] => (st, Except.error (-ENOSPC))
    | f, pnum :: rest =>
      let (sq, st1) := ubi_next_sqnum { st with free := rest }
      match f with
      | .write_vid =>
        ({ st1 with erase_pending := st1.erase_pending ++ [pnum] },
         Except.error (-EIO_errno))
      | .write_data written =>
        ({ st1 with
            vid := Function.update st1.vid pnum (some (lnum, sq)),
            flash := flash_write st1.flash pnum
              (List.replicate offset 0xFF ++ buf.take written),
            erase_pending := st1.erase_pending ++ [pnum] },
         Except.error (-EIO_errno))
      | _ =>
        let old := st.eba_tbl.getD lnum UBI_LEB_UNMAPPED
        ({ st1 with
            vid := Function.update st1.vid pnum (some (lnum, sq)),
            flash := flash_write st1.flash pnum
              (List.replicate offset 0xFF ++ buf),
            eba_tbl := st.eba_tbl.set lnum (Int.ofNat pnum),
            erase_pending :=
              st1.erase_pending ++
                (if old = UBI_LEB_UNMAPPED then [] else [old.toNat]) },
         Except.ok ())

/-! The wear-leveling sub-system (spec sections 3 and 4.3).

wl.c is not under src/ (ubi.h lines 910-932 only declare its entry
points), so the WL state machine is modelled from the spec.  The RB-trees
`free`, `used`, `scrub`, `erroneous` (ubi.h lines 559-563), the pending
erase work and the `bad` population are modelled as finite sets of PEB
numbers; the protection queue `pq` (ubi.h line 564) is an array of
`UBI_PROT_QUEUE_LEN` sets indexed cyclically by `pq_head` (line 565). -/

/-- Modelled from the spec: the WL-visible state of one UBI device.  Only
slots `0 .. UBI_PROT_QUEUE_LEN - 1` of `pq` are ever used. -/
structure WlState where
  peb_count : Nat
  free : Finset Nat
  used : Finset Nat
  scrub : Finset Nat
  erroneous : Finset Nat
  erase_pending : Finset Nat
  pq : Nat → Finset Nat
  pq_head : Nat
  bad : Finset Nat

/-- The set of protected PEBs: everything sitting in some protection-queue
slot. -/
def WlState.protect (s : WlState) : Finset Nat :=
  (Finset.range UBI_PROT_QUEUE_LEN).biUnion (fun i => s.pq i)

/-- The wear-leveling states a PEB can be in (spec section 3). -/
inductive PebSet where
  | free
  | used
  | scrub
  | erroneous
  | protect
  | erase_pending
  | bad
deriving DecidableEq

/-- Membership of PEB `p` in the component `k` of the WL state. -/
def wl_mem (s : WlState) : PebSet → Nat → Prop
  | .free, p => p ∈ s.free
  | .used, p => p ∈ s.used
  | .scrub, p => p ∈ s.scrub
  | .erroneous, p => p ∈ s.erroneous
  | .protect, p => p ∈ s.protect
  | .erase_pending, p => p ∈ s.erase_pending
  | .bad, p => p ∈ s.bad

/-- The protection-queue slot a freshly allocated PEB joins: the tail of
the cyclic queue, one position behind `pq_head`. -/
def pq_tail (s : WlState) : Nat :=
  (s.pq_head + (UBI_PROT_QUEUE_LEN - 1)) % UBI_PROT_QUEUE_LEN

/-- Modelled from the spec: one global erase tick.  It drains the list at
`pq_head` back into `used` and advances `pq_head` by one position. -/
def wl_tick (s : WlState) : WlState :=
  { s with
    used := s.used ∪ s.pq s.pq_head,
    pq := Function.update s.pq s.pq_head ∅,
    pq_head := (s.pq_head + 1) % UBI_PROT_QUEUE_LEN }

/-- The modelled WL transitions (spec section 4.3): PEB allocation, a tick
of the protection queue, returning a PEB for erasure, scheduling a scrub,
completion of an erase, and retiring a PEB as bad after a failed erase. -/
inductive WlOp where
  | get_peb (e : Nat)
  | tick
  | put_peb (p : Nat)
  | scrub_peb (p : Nat)
  | erase_done (p : Nat)
  | mark_bad (p : Nat)

/-- Precondition of each WL transition. -/
def wl_pre (s : WlState) : WlOp → Prop
  | .get_peb e => e ∈ s.free
  | .tick => True
  | .put_peb p => p ∈ s.used ∨ p ∈ s.scrub ∨ p ∈ s.erroneous ∨ p ∈ s.protect
  | .scrub_peb p => p ∈ s.used
  | .erase_done p => p ∈ s.erase_pending
  | .mark_bad p => p ∈ s.erase_pending

/-- Modelled from the spec: the effect of each WL transition.  `get_peb`
removes a PEB from `free` and, once written, it joins the tail of the
protection queue; `put_peb` moves a PEB from wherever it lives into the
pending-erase set; `scrub_peb` moves a used PEB to `scrub`; a finished
erase re-inserts the PEB into `free`; a failed erase retires it to `bad`. -/
def wl_step (s : WlState) : WlOp → WlState
  | .get_peb e =>
    { s with
      free := s.free.erase e,
      pq := Function.update s.pq (pq_tail s) (insert e (s.pq (pq_tail s))) }
  | .tick => wl_tick s
  | .put_peb p =>
    { s with
      used := s.used.erase p,
      scrub := s.scrub.erase p,
      erroneous := s.erroneous.erase p,
      pq := fun i => (s.pq i).erase p,
      erase_pending := insert p s.erase_pending }
  | .scrub_peb p =>
    { s with used := s.used.erase p, scrub := insert p s.scrub }
  | .erase_done p =>
    { s with erase_pending := s.erase_pending.erase p, free := insert p s.free }
  | .mark_bad p =>
    { s with erase_pending := s.erase_pending.erase p, bad := insert p s.bad }

/-- The WL partition invariant (spec section 8, invariant 2): every PEB
below `peb_count` is in exactly one of the seven populations (the six
wear-leveling sets plus `bad`), no PEB outside the range is in any of them,
a PEB sits in at most one protection-queue slot, and `pq_head` stays inside
the queue. -/
def wl_wf (s : WlState) : Prop :=
  (∀ p, p < s.peb_count ↔ ∃ k, wl_mem s k p) ∧
  (∀ p k k', wl_mem s k p → wl_mem s k' p → k = k') ∧
  (∀ p i j, i < UBI_PROT_QUEUE_LEN → j < UBI_PROT_QUEUE_LEN →
    p ∈ s.pq i → p ∈ s.pq j → i = j) ∧
  s.pq_head < UBI_PROT_QUEUE_LEN

/-- Modelled from the spec: the WL state of a freshly attached empty
device with `n` good PEBs, all free. -/
def wl_init (n : Nat) : WlState :=
  { peb_count := n
    free := Finset.range n
    used := ∅
    scrub := ∅
    erroneous := ∅
    erase_pending := ∅
    pq := fun _ => ∅
    pq_head := 0
    bad := ∅ }

/-! Helper lemmas. -/

/-- After `n` calls of `ubi_next_sqnum` the counter has grown by `n`. -/
theorem sq_iter_global_sqnum (st : EbaState) (n : Nat) :
    (sq_iter st n).global_sqnum = st.global_sqnum + n := by
  induction n with
  | zero => rfl
  | succ n ih =>
    simp only [sq_iter, ubi_next_sqnum, ih]
    omega

/-- Setting an entry of a wellformed EBA table to a wellformed value keeps
the table wellformed. -/
theorem eba_tbl_wf_set (tbl : List Int) (h : eba_tbl_wf tbl) (i : Nat) (v : Int)
    (hv : 0 ≤ v ∨ v = UBI_LEB_UNMAPPED) : eba_tbl_wf (tbl.set i v) := by
  intro e he
  rcases List.mem_or_eq_of_mem_set he with h1 | rfl
  · exact h e h1
  · exact hv

/-- A lookup in a wellformed EBA table (with the unmapped sentinel as
default) is itself a PEB number or the sentinel. -/
theorem eba_tbl_getD_wf (tbl : List Int) (h : eba_tbl_wf tbl) (i : Nat) :
    0 ≤ tbl.getD i UBI_LEB_UNMAPPED ∨
      tbl.getD i UBI_LEB_UNMAPPED = UBI_LEB_UNMAPPED := by
  by_cases hlen : i < tbl.length
  · rw [List.getD_eq_getElem _ _ hlen]
    exact h _ (List.getElem_mem hlen)
  · push_neg at hlen
    right
    simp [List.getD_eq_getElem?_getD, List.getElem?_eq_none hlen]

/-! Claim theorems. -/

/-- C10: `vol_id2idx` and `idx2vol_id` are mutually inverse on the valid
domains: for every volume ID that is either a regular slot
(`0 ≤ vol_id < vtbl_slots`) or an internal one
(`vol_id ≥ UBI_INTERNAL_VOL_START`), indexing and back returns the ID, and
for every table index `idx ≥ 0`, the volume ID of `idx` maps back to `idx`.
`UBI_INTERNAL_VOL_START` is a macro of ubi-media.h (not under src/) and is
quantified over here; in the source `vtbl_slots` is bounded by
`UBI_MAX_VOLUMES`, far below the macro's value, whence the hypothesis. -/
theorem vol_id2idx_idx2vol_id_inverse
    (internal_vol_start : Int) (ubi : VtblDev)
    (hslots : ubi.vtbl_slots ≤ internal_vol_start) :
    (∀ vol_id : Int,
      (0 ≤ vol_id ∧ vol_id < ubi.vtbl_slots) ∨ internal_vol_start ≤ vol_id →
      idx2vol_id internal_vol_start ubi (vol_id2idx internal_vol_start ubi vol_id)
        = vol_id) ∧
    (∀ idx : Int, 0 ≤ idx →
      vol_id2idx internal_vol_start ubi (idx2vol_id internal_vol_start ubi idx)
        = idx) := by
  constructor
  · intro vol_id h
    unfold vol_id2idx idx2vol_id
    rcases h with ⟨h0, h1⟩ | h2 <;> split_ifs <;> omega
  · intro idx h
    unfold vol_id2idx idx2vol_id
    split_ifs <;> omega

/-- Witness for C10 at the real constants: `UBI_INTERNAL_VOL_START` as in
ubi-media.h and a 128-slot volume table. -/
theorem vol_id2idx_idx2vol_id_inverse_witness :
    idx2vol_id 2147479552 ⟨128⟩ (vol_id2idx 2147479552 ⟨128⟩ 2147479553)
      = 2147479553 ∧
    vol_id2idx 2147479552 ⟨128⟩ (idx2vol_id 2147479552 ⟨128⟩ 129) = 129 := by
  have h := vol_id2idx_idx2vol_id_inverse 2147479552 ⟨128⟩ (by norm_num)
  exact ⟨h.1 2147479553 (Or.inr (by norm_num)), h.2 129 (by norm_num)⟩

/-- C9: `ubi_io_read_data` performs exactly `ubi_io_read` at
`offset + leb_start`, and `ubi_io_write_data` performs exactly
`ubi_io_write` at `offset + leb_start`: the user data of a LEB lives at
physical offset `leb_start` within its PEB, so byte `i` of a LEB-relative
read is the flash byte at physical offset `offset + leb_start + i`. -/
theorem ubi_io_data_at_leb_start (ubi : IoDev) (buf : List Nat)
    (pnum offset len : Nat) :
    ubi_io_read_data ubi pnum offset len
      = ubi_io_read ubi pnum (offset + ubi.leb_start) len ∧
    ubi_io_write_data ubi buf pnum offset
      = ubi_io_write ubi buf pnum (offset + ubi.leb_start) ∧
    (∀ i, i < len →
      (ubi_io_read_data ubi pnum offset len).getD i 0
        = ubi.flash pnum (offset + ubi.leb_start + i)) := by
  refine ⟨rfl, rfl, ?_⟩
  intro i hi
  simp [ubi_io_read_data, ubi_io_read, List.getD_eq_getElem?_getD,
    List.getElem?_range hi]

/-- Witness for C9: on a flash whose byte at `(p, o)` is `p + o`, with
`leb_start = 2`, byte 2 of a read at LEB offset 1 of PEB 3 is
`3 + (1 + 2 + 2) = 8`. -/
theorem ubi_io_data_at_leb_start_witness :
    (ubi_io_read_data ⟨2, fun p o => p + o⟩ 3 1 4).getD 2 0 = 8 := by
  have h := (ubi_io_data_at_leb_start ⟨2, fun p o => p + o⟩ [] 3 1 4).2.2 2
    (by norm_num)
  simpa using h

/-- C5: `ubi_next_sqnum` atomically increments `global_sqnum` and returns
it, so returned values are strictly monotone across calls: the value of
call `m` is strictly greater than that of any earlier call `n`, and in
particular of two successive calls the second is the larger; and a
(modelled) successful atomic LEB change draws a fresh value for the VID
header it writes. -/
theorem ubi_next_sqnum_strict_mono (st : EbaState) (lnum : Nat)
    (buf : List Nat) (n m : Nat) :
    ((ubi_next_sqnum st).2.global_sqnum = (ubi_next_sqnum st).1) ∧
    ((ubi_next_sqnum st).1 = st.global_sqnum + 1) ∧
    ((ubi_next_sqnum ((ubi_next_sqnum st).2)).1 > (ubi_next_sqnum st).1) ∧
    (n < m → sq_call_value st n < sq_call_value st m) ∧
    (st.ro_mode = 0 → ∀ pnum rest, st.free = pnum :: rest →
      (ubi_eba_atomic_leb_change st lnum buf IoFault.ok).1.global_sqnum
        = st.global_sqnum + 1 ∧
      (ubi_eba_atomic_leb_change st lnum buf IoFault.ok).1.vid pnum
        = some (lnum, st.global_sqnum + 1)) := by
  refine ⟨rfl, rfl, by simp [ubi_next_sqnum], ?_, ?_⟩
  · intro hnm
    simp only [sq_call_value, ubi_next_sqnum, sq_iter_global_sqnum]
    omega
  · intro hro pnum rest hfree
    simp [ubi_eba_atomic_leb_change, hro, hfree, ubi_next_sqnum,
      Function.update]

/-- Witness for C5: on a device with counter 7 and one free PEB, call 2
returns a strictly larger value than call 0, and a successful atomic LEB
change bumps the counter to 8. -/
theorem ubi_next_sqnum_strict_mono_witness :
    sq_call_value ⟨0, 7, [], fun _ _ => 0, fun _ => none, [3], []⟩ 0
      < sq_call_value ⟨0, 7, [], fun _ _ => 0, fun _ => none, [3], []⟩ 2 ∧
    (ubi_eba_atomic_leb_change ⟨0, 7, [], fun _ _ => 0, fun _ => none, [3], []⟩
      1 [9] IoFault.ok).1.global_sqnum = 8 := by
  have h := ubi_next_sqnum_strict_mono
    ⟨0, 7, [], fun _ _ => 0, fun _ => none, [3], []⟩ 1 [9] 0 2
  exact ⟨h.2.2.2.1 (by norm_num), (h.2.2.2.2 rfl 3 [] rfl).1⟩

/-- C4: the read-only latch is one-way within a session.  Invoking
`ubi_ro_mode` when `ro_mode` is already 1 leaves the device unchanged,
engaging it from 0 sets `ro_mode` to 1, no modelled write-path operation
ever alters `ro_mode`, and once `ro_mode = 1` every modelled write-path
operation returns `-EROFS`. -/
theorem ubi_ro_mode_one_way (st : EbaState) (lnum offset : Nat)
    (buf : List Nat) (fault : IoFault) :
    (st.ro_mode = 1 → ubi_ro_mode st = st) ∧
    (st.ro_mode = 0 → (ubi_ro_mode st).ro_mode = 1) ∧
    ((ubi_eba_unmap_leb st lnum).1.ro_mode = st.ro_mode) ∧
    ((ubi_eba_write_leb st lnum buf offset fault).1.ro_mode = st.ro_mode) ∧
    ((ubi_eba_atomic_leb_change st lnum buf fault).1.ro_mode = st.ro_mode) ∧
    (st.ro_mode = 1 →
      (ubi_eba_unmap_leb st lnum).2 = Except.error (-EROFS) ∧
      (ubi_eba_write_leb st lnum buf offset fault).2 = Except.error (-EROFS) ∧
      (ubi_eba_atomic_leb_change st lnum buf fault).2
        = Except.error (-EROFS)) := by
  refine ⟨?_, ?_, ?_, ?_, ?_, ?_⟩
  · intro h
    simp [ubi_ro_mode, h]
  · intro h
    simp [ubi_ro_mode, h]
  · unfold ubi_eba_unmap_leb
    split_ifs <;> rfl
  · unfold ubi_eba_write_leb
    split_ifs with h
    · rfl
    · rcases fault <;> rcases hfree : st.free <;>
        simp [hfree, ubi_next_sqnum]
  · unfold ubi_eba_atomic_leb_change
    split_ifs with h
    · rfl
    · rcases fault <;> rcases hfree : st.free <;>
        simp [hfree, ubi_next_sqnum]
  · intro h
    have h1 : st.ro_mode ≠ 0 := by omega
    refine ⟨?_, ?_, ?_⟩ <;>
      simp [ubi_eba_unmap_leb, ubi_eba_write_leb, ubi_eba_atomic_leb_change, h1]

/-- Witness for C4: a device already latched read-only is unchanged by the
latch and its unmap path fails with `-EROFS`. -/
theorem ubi_ro_mode_one_way_witness :
    ubi_ro_mode ⟨1, 0, [0], fun _ _ => 0, fun _ => none, [], []⟩
      = ⟨1, 0, [0], fun _ _ => 0, fun _ => none, [], []⟩ ∧
    (ubi_eba_unmap_leb ⟨1, 0, [0], fun _ _ => 0, fun _ => none, [], []⟩ 0).2
      = Except.error (-EROFS) := by
  have h := ubi_ro_mode_one_way
    ⟨1, 0, [0], fun _ _ => 0, fun _ => none, [], []⟩ 0 0 [] IoFault.ok
  exact ⟨h.1 rfl, (h.2.2.2.2.2 rfl).1⟩

/-- C8: every entry of an EBA table is either a physical eraseblock number
(non-negative) or the sentinel `UBI_LEB_UNMAPPED`, whose value is -1: a
fresh table is all-unmapped, and every modelled EBA operation writes only
a PEB number or the sentinel into the table. -/
theorem eba_tbl_entry_pnum_or_unmapped (st : EbaState) (lnum offset : Nat)
    (buf : List Nat) (fault : IoFault) (n : Nat) :
    UBI_LEB_UNMAPPED = -1 ∧
    eba_tbl_wf (eba_tbl_init n) ∧
    (eba_tbl_wf st.eba_tbl →
      eba_tbl_wf (ubi_eba_unmap_leb st lnum).1.eba_tbl ∧
      eba_tbl_wf (ubi_eba_write_leb st lnum buf offset fault).1.eba_tbl ∧
      eba_tbl_wf (ubi_eba_atomic_leb_change st lnum buf fault).1.eba_tbl) := by
  refine ⟨rfl, ?_, ?_⟩
  · intro e he
    exact Or.inr (List.eq_of_mem_replicate he)
  · intro h
    refine ⟨?_, ?_, ?_⟩
    · unfold ubi_eba_unmap_leb
      split_ifs with h1 h2
      · exact h
      · exact h
      · exact eba_tbl_wf_set _ h _ _ (Or.inr rfl)
    · unfold ubi_eba_write_leb
      split_ifs with h1
      · exact h
      · rcases fault <;> rcases hfree : st.free <;>
          simp only [hfree, ubi_next_sqnum] <;>
          first
            | exact h
            | exact eba_tbl_wf_set _ h _ _ (Or.inl (Int.ofNat_nonneg _))
    · unfold ubi_eba_atomic_leb_change
      split_ifs with h1
      · exact h
      · rcases fault <;> rcases hfree : st.free <;>
          simp only [hfree, ubi_next_sqnum] <;>
          first
            | exact h
            | exact eba_tbl_wf_set _ h _ _ (Or.inl (Int.ofNat_nonneg _))

/-- Witness for C8: a 3-entry table staying wellformed across a fresh
build and an unmap. -/
theorem eba_tbl_entry_pnum_or_unmapped_witness :
    eba_tbl_wf (eba_tbl_init 3) ∧
    eba_tbl_wf (ubi_eba_unmap_leb
      ⟨0, 0, [4, -1], fun _ _ => 0, fun _ => none, [], []⟩ 0).1.eba_tbl := by
  have h := eba_tbl_entry_pnum_or_unmapped
    ⟨0, 0, [4, -1], fun _ _ => 0, fun _ => none, [], []⟩ 0 0 [] IoFault.ok 3
  exact ⟨h.2.1, (h.2.2 (by unfold eba_tbl_wf UBI_LEB_UNMAPPED; decide)).1⟩

/-- C3: reading an unmapped LEB succeeds and yields `len` bytes all equal
to 0xFF, and in particular a read right after `ubi_eba_unmap_leb` yields
`len` bytes of 0xFF. -/
theorem unmapped_read_returns_ff (st : EbaState) (lnum offset len : Nat) :
    (st.eba_tbl.getD lnum UBI_LEB_UNMAPPED = UBI_LEB_UNMAPPED →
      ubi_eba_read_leb st lnum offset len
        = Except.ok (List.replicate len 0xFF) ∧
      ∀ bytes, ubi_eba_read_leb st lnum offset len = Except.ok bytes →
        bytes.length = len ∧ ∀ b ∈ bytes, b = 0xFF) ∧
    (st.ro_mode = 0 →
      ubi_eba_read_leb (ubi_eba_unmap_leb st lnum).1 lnum offset len
        = Except.ok (List.replicate len 0xFF)) := by
  constructor
  · intro h
    have h1 : ubi_eba_read_leb st lnum offset len
        = Except.ok (List.replicate len 0xFF) := by
      unfold ubi_eba_read_leb
      rw [if_pos h]
    refine ⟨h1, ?_⟩
    intro bytes hb
    rw [h1] at hb
    obtain rfl : List.replicate len 0xFF = bytes := by
      simpa using hb
    exact ⟨List.length_replicate len 0xFF,
      fun b hbm => List.eq_of_mem_replicate hbm⟩
  · intro hro
    unfold ubi_eba_unmap_leb
    split_ifs with h1 h2
    · exact absurd hro h1
    · unfold ubi_eba_read_leb
      rw [if_pos h2]
    · have hlen : lnum < st.eba_tbl.length := by
        by_contra hc
        push_neg at hc
        simp [List.getD_eq_getElem?_getD, List.getElem?_eq_none hc] at h2
      have hset : (st.eba_tbl.set lnum UBI_LEB_UNMAPPED).getD lnum
          UBI_LEB_UNMAPPED = UBI_LEB_UNMAPPED := by
        simp [List.getD_eq_getElem?_getD, List.getElem?_set_self hlen]
      unfold ubi_eba_read_leb
      rw [if_pos hset]

/-- Witness for C3: on a device with LEB 0 mapped to PEB 4, unmapping then
reading 2 bytes yields two 0xFF bytes. -/
theorem unmapped_read_returns_ff_witness :
    ubi_eba_read_leb (ubi_eba_unmap_leb
      ⟨0, 0, [4], fun _ _ => 7, fun _ => none, [], []⟩ 0).1 0 0 2
      = Except.ok [0xFF, 0xFF] := by
  have h := (unmapped_read_returns_ff
    ⟨0, 0, [4], fun _ _ => 7, fun _ => none, [], []⟩ 0 0 2).2 rfl
  simpa using h

/-- C6: every I/O read is classified into exactly one of the six
categories (their numeric codes, taken from the ubi.h enum, are pairwise
distinct, so the code determines the category), and a read whose MTD
outcome is an uncorrectable EBADMSG error but whose region is all 0xFF is
classified `ff_bitflips`: not an error, treated as empty, scheduled for
scrubbing. -/
theorem io_read_classified_exactly_one (buf : List Nat) (hdr_valid : Bool) :
    Function.Injective ioResultCode ∧
    (buf.all (fun b => b == 0xFF) = true →
      classify_io_read MtdReadStatus.ebadmsg buf hdr_valid
        = IoReadResult.ff_bitflips) ∧
    io_result_is_error IoReadResult.ff_bitflips = false ∧
    io_result_treated_empty IoReadResult.ff_bitflips = true ∧
    io_result_needs_scrub IoReadResult.ff_bitflips = true := by
  refine ⟨by decide, ?_, rfl, rfl, rfl⟩
  intro h
  simp [classify_io_read, h]

/-- Witness for C6: an EBADMSG read of an all-0xFF two-byte region is
classified `ff_bitflips`. -/
theorem io_read_classified_exactly_one_witness :
    classify_io_read MtdReadStatus.ebadmsg [0xFF, 0xFF] true
      = IoReadResult.ff_bitflips :=
  (io_read_classified_exactly_one [0xFF, 0xFF] true).2.1 (by decide)

/-- C1: the EBA-table swap is the single commit point of
`ubi_eba_atomic_leb_change`.  If any step before the swap fails (WL
allocation, the VID-header write, or the data write, even part-way), the
table entry of the LEB — and hence the readable content of the LEB — is
exactly what it was before the call; on success the table change is
exactly the single entry swap to the fresh PEB.  The freshness hypothesis
(a free PEB is never the current mapping) is the WL/EBA disjointness
invariant. -/
theorem atomic_leb_change_commit_point (st : EbaState) (lnum offset len : Nat)
    (buf : List Nat) (fault : IoFault)
    (hro : st.ro_mode = 0)
    (hwf : eba_tbl_wf st.eba_tbl)
    (hfresh : ∀ p ∈ st.free,
      (p : Int) ≠ st.eba_tbl.getD lnum UBI_LEB_UNMAPPED) :
    (fault ≠ IoFault.ok →
      (ubi_eba_atomic_leb_change st lnum buf fault).1.eba_tbl = st.eba_tbl ∧
      ubi_eba_read_leb (ubi_eba_atomic_leb_change st lnum buf fault).1
          lnum offset len
        = ubi_eba_read_leb st lnum offset len) ∧
    (∀ pnum rest, st.free = pnum :: rest →
      (ubi_eba_atomic_leb_change st lnum buf IoFault.ok).1.eba_tbl
        = st.eba_tbl.set lnum (Int.ofNat pnum)) := by
  have hro' : ¬st.ro_mode ≠ 0 := by omega
  constructor
  · intro hf
    rcases fault with _ | _ | _ | w
    · exact absurd rfl hf
    · simp [ubi_eba_atomic_leb_change, hro']
    · rcases hfree : st.free with _ | ⟨pnum, rest⟩
      · simp [ubi_eba_atomic_leb_change, hro', hfree]
      · simp only [ubi_eba_atomic_leb_change, hro', if_false, hfree,
          ubi_next_sqnum]
        exact ⟨trivial, rfl⟩
    · rcases hfree : st.free with _ | ⟨pnum, rest⟩
      · simp [ubi_eba_atomic_leb_change, hro', hfree]
      · have hq : (st.eba_tbl.getD lnum UBI_LEB_UNMAPPED).toNat ≠ pnum ∨
            st.eba_tbl.getD lnum UBI_LEB_UNMAPPED = UBI_LEB_UNMAPPED := by
          rcases eba_tbl_getD_wf st.eba_tbl hwf lnum with hge | hun
          · left
            have hne := hfresh pnum (by rw [hfree]; exact List.mem_cons_self pnum rest)
            omega
          · right
            exact hun
        simp only [ubi_eba_atomic_leb_change, hro', if_false, hfree,
          ubi_next_sqnum]
        refine ⟨trivial, ?_⟩
        unfold ubi_eba_read_leb
        by_cases hm : st.eba_tbl.getD lnum UBI_LEB_UNMAPPED = UBI_LEB_UNMAPPED
        · rw [if_pos hm, if_pos hm]
        · rw [if_neg hm, if_neg hm]
          have hqq : (st.eba_tbl.getD lnum UBI_LEB_UNMAPPED).toNat ≠ pnum := by
            rcases hq with h | h
            · exact h
            · exact absurd h hm
          congr 1
          apply List.map_congr_left
          intro i _
          show flash_write st.flash pnum (buf.take w) _ _ = _
          unfold flash_write
          rw [if_neg]
          rintro ⟨h1, -⟩
          exact hqq h1
  · intro pnum rest hfree
    simp only [ubi_eba_atomic_leb_change, hro', if_false, hfree,
      ubi_next_sqnum]

/-- Witness for C1: on a device with LEB 0 mapped to PEB 9 holding byte 7
and free PEB 3, a data-write failure leaves the table and the readable
content unchanged, while the fault-free run swaps the entry to PEB 3. -/
theorem atomic_leb_change_commit_point_witness :
    (ubi_eba_atomic_leb_change
      ⟨0, 0, [9], fun _ _ => 7, fun _ => none, [3], []⟩ 0 [1, 2]
      (IoFault.write_data 1)).1.eba_tbl = [9] ∧
    ubi_eba_read_leb (ubi_eba_atomic_leb_change
      ⟨0, 0, [9], fun _ _ => 7, fun _ => none, [3], []⟩ 0 [1, 2]
      (IoFault.write_data 1)).1 0 0 2 = Except.ok [7, 7] ∧
    (ubi_eba_atomic_leb_change
      ⟨0, 0, [9], fun _ _ => 7, fun _ => none, [3], []⟩ 0 [1, 2]
      IoFault.ok).1.eba_tbl = [3] := by
  have h := atomic_leb_change_commit_point
    ⟨0, 0, [9], fun _ _ => 7, fun _ => none, [3], []⟩ 0 0 2 [1, 2]
    (IoFault.write_data 1) rfl
    (by unfold eba_tbl_wf UBI_LEB_UNMAPPED; decide)
    (by unfold UBI_LEB_UNMAPPED; decide)
  have h1 := h.1 (by decide)
  refine ⟨h1.1, ?_, ?_⟩
  · rw [h1.2]
    unfold ubi_eba_read_leb
    norm_num [UBI_LEB_UNMAPPED, List.range_succ]
  · have h2 := h.2 3 [] rfl
    rw [h2]
    rfl

/-! Helper lemmas for the wear-leveling state machine. -/

/-- Membership in the protected population unfolded to the queue slots. -/
theorem mem_protect_iff (s : WlState) (p : Nat) :
    p ∈ s.protect ↔ ∃ i, i < UBI_PROT_QUEUE_LEN ∧ p ∈ s.pq i := by
  simp [WlState.protect, Finset.mem_biUnion, Finset.mem_range]

/-- In a wellformed state, a PEB with a known location is in a component
exactly when that component is its location. -/
theorem wl_loc_unique (s : WlState) (hwf : wl_wf s) {p : Nat} {k : PebSet}
    (hk : wl_mem s k p) (k' : PebSet) : wl_mem s k' p ↔ k' = k :=
  ⟨fun h => hwf.2.1 p k' k h hk, fun h => h ▸ hk⟩

/-- In a wellformed state, a PEB with a known location is absent from every
other component. -/
theorem wl_mem_ne_loc (s : WlState) (hwf : wl_wf s) {p : Nat} {k k' : PebSet}
    (hk : wl_mem s k p) (hne : k' ≠ k) : ¬wl_mem s k' p :=
  fun h => hne (hwf.2.1 p k' k h hk)

/-- The tail slot of the protection queue is a valid slot. -/
theorem pq_tail_lt (s : WlState) : pq_tail s < UBI_PROT_QUEUE_LEN := by
  unfold pq_tail UBI_PROT_QUEUE_LEN
  omega

/-- Existence of a location, unfolded to the seven memberships. -/
theorem wl_mem_exists_iff (s : WlState) (p : Nat) :
    (∃ k, wl_mem s k p) ↔
      (p ∈ s.free ∨ p ∈ s.used ∨ p ∈ s.scrub ∨ p ∈ s.erroneous ∨
        p ∈ s.protect ∨ p ∈ s.erase_pending ∨ p ∈ s.bad) := by
  constructor
  · rintro ⟨k, hk⟩
    cases k
    · exact Or.inl hk
    · exact Or.inr (Or.inl hk)
    · exact Or.inr (Or.inr (Or.inl hk))
    · exact Or.inr (Or.inr (Or.inr (Or.inl hk)))
    · exact Or.inr (Or.inr (Or.inr (Or.inr (Or.inl hk))))
    · exact Or.inr (Or.inr (Or.inr (Or.inr (Or.inr (Or.inl hk)))))
    · exact Or.inr (Or.inr (Or.inr (Or.inr (Or.inr (Or.inr hk)))))
  · rintro (h | h | h | h | h | h | h)
    exacts [⟨.free, h⟩, ⟨.used, h⟩, ⟨.scrub, h⟩, ⟨.erroneous, h⟩,
      ⟨.protect, h⟩, ⟨.erase_pending, h⟩, ⟨.bad, h⟩]

/-- The freshly attached empty device is wellformed. -/
theorem wl_wf_init (n : Nat) : wl_wf (wl_init n) := by
  refine ⟨?_, ?_, ?_, ?_⟩
  · intro p
    constructor
    · intro hp
      exact ⟨.free, Finset.mem_range.mpr hp⟩
    · rintro ⟨k, hk⟩
      cases k <;> simp [wl_init, wl_mem, WlState.protect] at hk ⊢
      exact hk
  · intro p k k' h1 h2
    cases k <;> cases k' <;> simp_all [wl_init, wl_mem, WlState.protect]
  · intro p i j hi hj h1 h2
    simp [wl_init] at h1
  · show 0 < UBI_PROT_QUEUE_LEN
    norm_num [UBI_PROT_QUEUE_LEN]

/-- After `get_peb e`, the protected population is the old one plus `e`. -/
theorem get_peb_protect_iff (s : WlState) (e p : Nat) :
    p ∈ (wl_step s (.get_peb e)).protect ↔ p = e ∨ p ∈ s.protect := by
  simp only [wl_step, mem_protect_iff, Function.update_apply]
  constructor
  · rintro ⟨i, hi, hm⟩
    by_cases hit : i = pq_tail s
    · rw [if_pos hit] at hm
      rcases Finset.mem_insert.mp hm with h | h
      · exact Or.inl h
      · exact Or.inr ⟨pq_tail s, pq_tail_lt s, h⟩
    · rw [if_neg hit] at hm
      exact Or.inr ⟨i, hi, hm⟩
  · rintro (rfl | ⟨i, hi, hm⟩)
    · exact ⟨pq_tail s, pq_tail_lt s, by simp⟩
    · by_cases hit : i = pq_tail s
      · refine ⟨pq_tail s, hit ▸ hi, ?_⟩
        rw [if_pos rfl]
        exact Finset.mem_insert_of_mem (hit ▸ hm)
      · exact ⟨i, hi, by rw [if_neg hit]; exact hm⟩

/-- `get_peb e` does not move any PEB other than `e`. -/
theorem get_peb_mem_ne (s : WlState) (e p : Nat) (hpe : p ≠ e) (k : PebSet) :
    wl_mem (wl_step s (.get_peb e)) k p ↔ wl_mem s k p := by
  cases k with
  | free =>
    show p ∈ s.free.erase e ↔ p ∈ s.free
    simp [Finset.mem_erase, hpe]
  | protect =>
    show p ∈ (wl_step s (.get_peb e)).protect ↔ p ∈ s.protect
    rw [get_peb_protect_iff]
    simp [hpe]
  | used => exact Iff.rfl
  | scrub => exact Iff.rfl
  | erroneous => exact Iff.rfl
  | erase_pending => exact Iff.rfl
  | bad => exact Iff.rfl

/-- After `get_peb e` on a wellformed state, the location of `e` is exactly
the protection queue. -/
theorem get_peb_mem_self (s : WlState) (e : Nat) (hwf : wl_wf s)
    (he : e ∈ s.free) (k : PebSet) :
    wl_mem (wl_step s (.get_peb e)) k e ↔ k = PebSet.protect := by
  have hfree : wl_mem s .free e := he
  cases k with
  | free =>
    show e ∈ s.free.erase e ↔ _
    simp
  | protect =>
    exact iff_of_true ((get_peb_protect_iff s e e).mpr (Or.inl rfl)) rfl
  | used =>
    refine iff_of_false ?_ (by simp)
    show ¬wl_mem s .used e
    exact wl_mem_ne_loc s hwf hfree (by simp)
  | scrub =>
    refine iff_of_false ?_ (by simp)
    show ¬wl_mem s .scrub e
    exact wl_mem_ne_loc s hwf hfree (by simp)
  | erroneous =>
    refine iff_of_false ?_ (by simp)
    show ¬wl_mem s .erroneous e
    exact wl_mem_ne_loc s hwf hfree (by simp)
  | erase_pending =>
    refine iff_of_false ?_ (by simp)
    show ¬wl_mem s .erase_pending e
    exact wl_mem_ne_loc s hwf hfree (by simp)
  | bad =>
    refine iff_of_false ?_ (by simp)
    show ¬wl_mem s .bad e
    exact wl_mem_ne_loc s hwf hfree (by simp)

/-- `get_peb` preserves the WL partition invariant. -/
theorem wl_wf_get_peb (s : WlState) (e : Nat) (hwf : wl_wf s)
    (he : e ∈ s.free) : wl_wf (wl_step s (.get_peb e)) := by
  have hfree : wl_mem s .free e := he
  refine ⟨?_, ?_, ?_, ?_⟩
  · intro p
    by_cases hpe : p = e
    · subst hpe
      exact iff_of_true ((hwf.1 p).mpr ⟨.free, hfree⟩)
        ⟨.protect, (get_peb_mem_self s p hwf he .protect).mpr rfl⟩
    · constructor
      · intro hp
        obtain ⟨k, hk⟩ := (hwf.1 p).mp hp
        exact ⟨k, (get_peb_mem_ne s e p hpe k).mpr hk⟩
      · rintro ⟨k, hk⟩
        exact (hwf.1 p).mpr ⟨k, (get_peb_mem_ne s e p hpe k).mp hk⟩
  · intro p k k' h1 h2
    by_cases hpe : p = e
    · subst hpe
      rw [get_peb_mem_self s p hwf he k] at h1
      rw [get_peb_mem_self s p hwf he k'] at h2
      rw [h1, h2]
    · rw [get_peb_mem_ne s e p hpe k] at h1
      rw [get_peb_mem_ne s e p hpe k'] at h2
      exact hwf.2.1 p k k' h1 h2
  · intro p i j hi hj h1 h2
    have hnp : ¬wl_mem s .protect e := wl_mem_ne_loc s hwf hfree (by simp)
    have hmem : ∀ m, m < UBI_PROT_QUEUE_LEN →
        p ∈ Function.update s.pq (pq_tail s)
          (insert e (s.pq (pq_tail s))) m →
        (p = e ∧ m = pq_tail s) ∨ p ∈ s.pq m := by
      intro m hm hpm
      rw [Function.update_apply] at hpm
      by_cases hmt : m = pq_tail s
      · rw [if_pos hmt] at hpm
        rcases Finset.mem_insert.mp hpm with h | h
        · exact Or.inl ⟨h, hmt⟩
        · exact Or.inr (hmt ▸ h)
      · rw [if_neg hmt] at hpm
        exact Or.inr hpm
    have h1' := hmem i hi h1
    have h2' := hmem j hj h2
    rcases h1' with ⟨rfl, rfl⟩ | h1'
    · rcases h2' with ⟨-, rfl⟩ | h2'
      · rfl
      · exact absurd ((mem_protect_iff s p).mpr ⟨j, hj, h2'⟩) hnp
    · rcases h2' with ⟨rfl, rfl⟩ | h2'
      · exact absurd ((mem_protect_iff s p).mpr ⟨i, hi, h1'⟩) hnp
      · exact hwf.2.2.1 p i j hi hj h1' h2'
  · exact hwf.2.2.2

/-- After a tick, the protected population is what sat in the slots other
than the drained one. -/
theorem tick_protect_iff (s : WlState) (p : Nat) :
    p ∈ (wl_tick s).protect ↔
      ∃ i, i < UBI_PROT_QUEUE_LEN ∧ i ≠ s.pq_head ∧ p ∈ s.pq i := by
  simp only [wl_tick, mem_protect_iff, Function.update_apply]
  constructor
  · rintro ⟨i, hi, hm⟩
    by_cases hih : i = s.pq_head
    · rw [if_pos hih] at hm
      exact absurd hm (Finset.not_mem_empty p)
    · rw [if_neg hih] at hm
      exact ⟨i, hi, hih, hm⟩
  · rintro ⟨i, hi, hih, hm⟩
    exact ⟨i, hi, by rw [if_neg hih]; exact hm⟩

/-- A tick does not move a PEB that is not in the drained slot. -/
theorem tick_mem_notin (s : WlState) (p : Nat) (hp : p ∉ s.pq s.pq_head)
    (k : PebSet) : wl_mem (wl_tick s) k p ↔ wl_mem s k p := by
  cases k with
  | used =>
    show p ∈ s.used ∪ s.pq s.pq_head ↔ p ∈ s.used
    simp [Finset.mem_union, hp]
  | protect =>
    show p ∈ (wl_tick s).protect ↔ p ∈ s.protect
    rw [tick_protect_iff, mem_protect_iff]
    constructor
    · rintro ⟨i, hi, -, hm⟩
      exact ⟨i, hi, hm⟩
    · rintro ⟨i, hi, hm⟩
      refine ⟨i, hi, ?_, hm⟩
      rintro rfl
      exact hp hm
  | free => exact Iff.rfl
  | scrub => exact Iff.rfl
  | erroneous => exact Iff.rfl
  | erase_pending => exact Iff.rfl
  | bad => exact Iff.rfl

/-- A tick moves the PEBs of the drained slot into `used`. -/
theorem tick_mem_in (s : WlState) (p : Nat) (hwf : wl_wf s)
    (hp : p ∈ s.pq s.pq_head) (k : PebSet) :
    wl_mem (wl_tick s) k p ↔ k = PebSet.used := by
  have hprot : wl_mem s .protect p :=
    (mem_protect_iff s p).mpr ⟨s.pq_head, hwf.2.2.2, hp⟩
  cases k with
  | used =>
    exact iff_of_true (Finset.mem_union_right _ hp) rfl
  | protect =>
    refine iff_of_false ?_ (by simp)
    rw [show wl_mem (wl_tick s) .protect p ↔ _ from tick_protect_iff s p]
    rintro ⟨i, hi, hne, hm⟩
    exact hne (hwf.2.2.1 p i s.pq_head hi hwf.2.2.2 hm hp)
  | free =>
    refine iff_of_false ?_ (by simp)
    show ¬wl_mem s .free p
    exact wl_mem_ne_loc s hwf hprot (by simp)
  | scrub =>
    refine iff_of_false ?_ (by simp)
    show ¬wl_mem s .scrub p
    exact wl_mem_ne_loc s hwf hprot (by simp)
  | erroneous =>
    refine iff_of_false ?_ (by simp)
    show ¬wl_mem s .erroneous p
    exact wl_mem_ne_loc s hwf hprot (by simp)
  | erase_pending =>
    refine iff_of_false ?_ (by simp)
    show ¬wl_mem s .erase_pending p
    exact wl_mem_ne_loc s hwf hprot (by simp)
  | bad =>
    refine iff_of_false ?_ (by simp)
    show ¬wl_mem s .bad p
    exact wl_mem_ne_loc s hwf hprot (by simp)

/-- A tick preserves the WL partition invariant. -/
theorem wl_wf_tick (s : WlState) (hwf : wl_wf s) : wl_wf (wl_tick s) := by
  refine ⟨?_, ?_, ?_, ?_⟩
  · intro p
    by_cases hp : p ∈ s.pq s.pq_head
    · have hprot : wl_mem s .protect p :=
        (mem_protect_iff s p).mpr ⟨s.pq_head, hwf.2.2.2, hp⟩
      exact iff_of_true ((hwf.1 p).mpr ⟨.protect, hprot⟩)
        ⟨.used, (tick_mem_in s p hwf hp .used).mpr rfl⟩
    · constructor
      · intro hlt
        obtain ⟨k, hk⟩ := (hwf.1 p).mp hlt
        exact ⟨k, (tick_mem_notin s p hp k).mpr hk⟩
      · rintro ⟨k, hk⟩
        exact (hwf.1 p).mpr ⟨k, (tick_mem_notin s p hp k).mp hk⟩
  · intro p k k' h1 h2
    by_cases hp : p ∈ s.pq s.pq_head
    · rw [tick_mem_in s p hwf hp k] at h1
      rw [tick_mem_in s p hwf hp k'] at h2
      rw [h1, h2]
    · rw [tick_mem_notin s p hp k] at h1
      rw [tick_mem_notin s p hp k'] at h2
      exact hwf.2.1 p k k' h1 h2
  · intro p i j hi hj h1 h2
    have hred : ∀ m, p ∈ (wl_tick s).pq m → m ≠ s.pq_head ∧ p ∈ s.pq m := by
      intro m hm
      rw [show (wl_tick s).pq m = _ from Function.update_apply ..] at hm
      by_cases hmh : m = s.pq_head
      · rw [if_pos hmh] at hm
        exact absurd hm (Finset.not_mem_empty p)
      · rw [if_neg hmh] at hm
        exact ⟨hmh, hm⟩
    exact hwf.2.2.1 p i j hi hj (hred i h1).2 (hred j h2).2
  · show (s.pq_head + 1) % UBI_PROT_QUEUE_LEN < UBI_PROT_QUEUE_LEN
    simp only [UBI_PROT_QUEUE_LEN]
    omega

/-- After `put_peb p`, the protected population is the old one minus `p`. -/
theorem put_peb_protect_iff (s : WlState) (p q : Nat) :
    q ∈ (wl_step s (.put_peb p)).protect ↔ q ≠ p ∧ q ∈ s.protect := by
  simp only [wl_step, mem_protect_iff]
  constructor
  · rintro ⟨i, hi, hm⟩
    obtain ⟨hne, hq⟩ := Finset.mem_erase.mp hm
    exact ⟨hne, i, hi, hq⟩
  · rintro ⟨hne, i, hi, hq⟩
    exact ⟨i, hi, Finset.mem_erase.mpr ⟨hne, hq⟩⟩

/-- `put_peb p` does not move any PEB other than `p`. -/
theorem put_peb_mem_ne (s : WlState) (p q : Nat) (hqp : q ≠ p) (k : PebSet) :
    wl_mem (wl_step s (.put_peb p)) k q ↔ wl_mem s k q := by
  cases k with
  | free => exact Iff.rfl
  | used =>
    show q ∈ s.used.erase p ↔ q ∈ s.used
    simp [Finset.mem_erase, hqp]
  | scrub =>
    show q ∈ s.scrub.erase p ↔ q ∈ s.scrub
    simp [Finset.mem_erase, hqp]
  | erroneous =>
    show q ∈ s.erroneous.erase p ↔ q ∈ s.erroneous
    simp [Finset.mem_erase, hqp]
  | protect =>
    show q ∈ (wl_step s (.put_peb p)).protect ↔ q ∈ s.protect
    rw [put_peb_protect_iff]
    simp [hqp]
  | erase_pending =>
    show q ∈ insert p s.erase_pending ↔ q ∈ s.erase_pending
    simp [Finset.mem_insert, hqp]
  | bad => exact Iff.rfl

/-- After `put_peb p` on a wellformed state with `p` in one of the live
populations, the location of `p` is exactly the pending-erase set. -/
theorem put_peb_mem_self (s : WlState) (p : Nat) (hwf : wl_wf s)
    (hpre : p ∈ s.used ∨ p ∈ s.scrub ∨ p ∈ s.erroneous ∨ p ∈ s.protect)
    (k : PebSet) :
    wl_mem (wl_step s (.put_peb p)) k p ↔ k = PebSet.erase_pending := by
  have hloc : ∃ k₀, wl_mem s k₀ p ∧
      (k₀ = PebSet.used ∨ k₀ = PebSet.scrub ∨ k₀ = PebSet.erroneous ∨
        k₀ = PebSet.protect) := by
    rcases hpre with h | h | h | h
    · exact ⟨.used, h, Or.inl rfl⟩
    · exact ⟨.scrub, h, Or.inr (Or.inl rfl)⟩
    · exact ⟨.erroneous, h, Or.inr (Or.inr (Or.inl rfl))⟩
    · exact ⟨.protect, h, Or.inr (Or.inr (Or.inr rfl))⟩
  have hnfree : ¬wl_mem s .free p := by
    obtain ⟨k₀, hk₀, hk₀s⟩ := hloc
    refine wl_mem_ne_loc s hwf hk₀ ?_
    rcases hk₀s with rfl | rfl | rfl | rfl <;> simp
  have hnbad : ¬wl_mem s .bad p := by
    obtain ⟨k₀, hk₀, hk₀s⟩ := hloc
    refine wl_mem_ne_loc s hwf hk₀ ?_
    rcases hk₀s with rfl | rfl | rfl | rfl <;> simp
  cases k with
  | free =>
    refine iff_of_false ?_ (by simp)
    show ¬wl_mem s .free p
    exact hnfree
  | used =>
    show p ∈ s.used.erase p ↔ _
    simp
  | scrub =>
    show p ∈ s.scrub.erase p ↔ _
    simp
  | erroneous =>
    show p ∈ s.erroneous.erase p ↔ _
    simp
  | protect =>
    refine iff_of_false ?_ (by simp)
    rw [show wl_mem (wl_step s (.put_peb p)) .protect p ↔ _ from
      put_peb_protect_iff s p p]
    rintro ⟨hne, -⟩
    exact hne rfl
  | erase_pending =>
    refine iff_of_true ?_ rfl
    show p ∈ insert p s.erase_pending
    exact Finset.mem_insert_self p _
  | bad =>
    refine iff_of_false ?_ (by simp)
    show ¬wl_mem s .bad p
    exact hnbad

/-- `put_peb` preserves the WL partition invariant. -/
theorem wl_wf_put_peb (s : WlState) (p : Nat) (hwf : wl_wf s)
    (hpre : p ∈ s.used ∨ p ∈ s.scrub ∨ p ∈ s.erroneous ∨ p ∈ s.protect) :
    wl_wf (wl_step s (.put_peb p)) := by
  have hold : ∃ k₀, wl_mem s k₀ p := by
    rcases hpre with h | h | h | h
    exacts [⟨.used, h⟩, ⟨.scrub, h⟩, ⟨.erroneous, h⟩, ⟨.protect, h⟩]
  refine ⟨?_, ?_, ?_, ?_⟩
  · intro q
    by_cases hqp : q = p
    · subst hqp
      exact iff_of_true ((hwf.1 q).mpr hold)
        ⟨.erase_pending, (put_peb_mem_self s q hwf hpre .erase_pending).mpr rfl⟩
    · constructor
      · intro hlt
        obtain ⟨k, hk⟩ := (hwf.1 q).mp hlt
        exact ⟨k, (put_peb_mem_ne s p q hqp k).mpr hk⟩
      · rintro ⟨k, hk⟩
        exact (hwf.1 q).mpr ⟨k, (put_peb_mem_ne s p q hqp k).mp hk⟩
  · intro q k k' h1 h2
    by_cases hqp : q = p
    · subst hqp
      rw [put_peb_mem_self s q hwf hpre k] at h1
      rw [put_peb_mem_self s q hwf hpre k'] at h2
      rw [h1, h2]
    · rw [put_peb_mem_ne s p q hqp k] at h1
      rw [put_peb_mem_ne s p q hqp k'] at h2
      exact hwf.2.1 q k k' h1 h2
  · intro q i j hi hj h1 h2
    have h1' : q ∈ s.pq i := (Finset.mem_erase.mp h1).2
    have h2' : q ∈ s.pq j := (Finset.mem_erase.mp h2).2
    exact hwf.2.2.1 q i j hi hj h1' h2'
  · exact hwf.2.2.2

/-- `scrub_peb p` does not move any PEB other than `p`. -/
theorem scrub_peb_mem_ne (s : WlState) (p q : Nat) (hqp : q ≠ p) (k : PebSet) :
    wl_mem (wl_step s (.scrub_peb p)) k q ↔ wl_mem s k q := by
  cases k with
  | used =>
    show q ∈ s.used.erase p ↔ q ∈ s.used
    simp [Finset.mem_erase, hqp]
  | scrub =>
    show q ∈ insert p s.scrub ↔ q ∈ s.scrub
    simp [Finset.mem_insert, hqp]
  | free => exact Iff.rfl
  | erroneous => exact Iff.rfl
  | protect => exact Iff.rfl
  | erase_pending => exact Iff.rfl
  | bad => exact Iff.rfl

/-- After `scrub_peb p` on a wellformed state with `p` used, the location
of `p` is exactly the scrub set. -/
theorem scrub_peb_mem_self (s : WlState) (p : Nat) (hwf : wl_wf s)
    (hpre : p ∈ s.used) (k : PebSet) :
    wl_mem (wl_step s (.scrub_peb p)) k p ↔ k = PebSet.scrub := by
  have hused : wl_mem s .used p := hpre
  cases k with
  | used =>
    show p ∈ s.used.erase p ↔ _
    simp
  | scrub =>
    refine iff_of_true ?_ rfl
    show p ∈ insert p s.scrub
    exact Finset.mem_insert_self p _
  | free =>
    refine iff_of_false ?_ (by simp)
    show ¬wl_mem s .free p
    exact wl_mem_ne_loc s hwf hused (by simp)
  | erroneous =>
    refine iff_of_false ?_ (by simp)
    show ¬wl_mem s .erroneous p
    exact wl_mem_ne_loc s hwf hused (by simp)
  | protect =>
    refine iff_of_false ?_ (by simp)
    show ¬wl_mem s .protect p
    exact wl_mem_ne_loc s hwf hused (by simp)
  | erase_pending =>
    refine iff_of_false ?_ (by simp)
    show ¬wl_mem s .erase_pending p
    exact wl_mem_ne_loc s hwf hused (by simp)
  | bad =>
    refine iff_of_false ?_ (by simp)
    show ¬wl_mem s .bad p
    exact wl_mem_ne_loc s hwf hused (by simp)

/-- `scrub_peb` preserves the WL partition invariant. -/
theorem wl_wf_scrub_peb (s : WlState) (p : Nat) (hwf : wl_wf s)
    (hpre : p ∈ s.used) : wl_wf (wl_step s (.scrub_peb p)) := by
  refine ⟨?_, ?_, ?_, ?_⟩
  · intro q
    by_cases hqp : q = p
    · subst hqp
      exact iff_of_true ((hwf.1 q).mpr ⟨.used, hpre⟩)
        ⟨.scrub, (scrub_peb_mem_self s q hwf hpre .scrub).mpr rfl⟩
    · constructor
      · intro hlt
        obtain ⟨k, hk⟩ := (hwf.1 q).mp hlt
        exact ⟨k, (scrub_peb_mem_ne s p q hqp k).mpr hk⟩
      · rintro ⟨k, hk⟩
        exact (hwf.1 q).mpr ⟨k, (scrub_peb_mem_ne s p q hqp k).mp hk⟩
  · intro q k k' h1 h2
    by_cases hqp : q = p
    · subst hqp
      rw [scrub_peb_mem_self s q hwf hpre k] at h1
      rw [scrub_peb_mem_self s q hwf hpre k'] at h2
      rw [h1, h2]
    · rw [scrub_peb_mem_ne s p q hqp k] at h1
      rw [scrub_peb_mem_ne s p q hqp k'] at h2
      exact hwf.2.1 q k k' h1 h2
  · exact hwf.2.2.1
  · exact hwf.2.2.2

/-- `erase_done p` does not move any PEB other than `p`. -/
theorem erase_done_mem_ne (s : WlState) (p q : Nat) (hqp : q ≠ p)
    (k : PebSet) : wl_mem (wl_step s (.erase_done p)) k q ↔ wl_mem s k q := by
  cases k with
  | erase_pending =>
    show q ∈ s.erase_pending.erase p ↔ q ∈ s.erase_pending
    simp [Finset.mem_erase, hqp]
  | free =>
    show q ∈ insert p s.free ↔ q ∈ s.free
    simp [Finset.mem_insert, hqp]
  | used => exact Iff.rfl
  | scrub => exact Iff.rfl
  | erroneous => exact Iff.rfl
  | protect => exact Iff.rfl
  | bad => exact Iff.rfl

/-- After `erase_done p` on a wellformed state with `p` pending erase, the
location of `p` is exactly the free set. -/
theorem erase_done_mem_self (s : WlState) (p : Nat) (hwf : wl_wf s)
    (hpre : p ∈ s.erase_pending) (k : PebSet) :
    wl_mem (wl_step s (.erase_done p)) k p ↔ k = PebSet.free := by
  have hep : wl_mem s .erase_pending p := hpre
  cases k with
  | erase_pending =>
    show p ∈ s.erase_pending.erase p ↔ _
    simp
  | free =>
    refine iff_of_true ?_ rfl
    show p ∈ insert p s.free
    exact Finset.mem_insert_self p _
  | used =>
    refine iff_of_false ?_ (by simp)
    show ¬wl_mem s .used p
    exact wl_mem_ne_loc s hwf hep (by simp)
  | scrub =>
    refine iff_of_false ?_ (by simp)
    show ¬wl_mem s .scrub p
    exact wl_mem_ne_loc s hwf hep (by simp)
  | erroneous =>
    refine iff_of_false ?_ (by simp)
    show ¬wl_mem s .erroneous p
    exact wl_mem_ne_loc s hwf hep (by simp)
  | protect =>
    refine iff_of_false ?_ (by simp)
    show ¬wl_mem s .protect p
    exact wl_mem_ne_loc s hwf hep (by simp)
  | bad =>
    refine iff_of_false ?_ (by simp)
    show ¬wl_mem s .bad p
    exact wl_mem_ne_loc s hwf hep (by simp)

/-- `erase_done` preserves the WL partition invariant. -/
theorem wl_wf_erase_done (s : WlState) (p : Nat) (hwf : wl_wf s)
    (hpre : p ∈ s.erase_pending) : wl_wf (wl_step s (.erase_done p)) := by
  refine ⟨?_, ?_, ?_, ?_⟩
  · intro q
    by_cases hqp : q = p
    · subst hqp
      exact iff_of_true ((hwf.1 q).mpr ⟨.erase_pending, hpre⟩)
        ⟨.free, (erase_done_mem_self s q hwf hpre .free).mpr rfl⟩
    · constructor
      · intro hlt
        obtain ⟨k, hk⟩ := (hwf.1 q).mp hlt
        exact ⟨k, (erase_done_mem_ne s p q hqp k).mpr hk⟩
      · rintro ⟨k, hk⟩
        exact (hwf.1 q).mpr ⟨k, (erase_done_mem_ne s p q hqp k).mp hk⟩
  · intro q k k' h1 h2
    by_cases hqp : q = p
    · subst hqp
      rw [erase_done_mem_self s q hwf hpre k] at h1
      rw [erase_done_mem_self s q hwf hpre k'] at h2
      rw [h1, h2]
    · rw [erase_done_mem_ne s p q hqp k] at h1
      rw [erase_done_mem_ne s p q hqp k'] at h2
      exact hwf.2.1 q k k' h1 h2
  · exact hwf.2.2.1
  · exact hwf.2.2.2

/-- `mark_bad p` does not move any PEB other than `p`. -/
theorem mark_bad_mem_ne (s : WlState) (p q : Nat) (hqp : q ≠ p)
    (k : PebSet) : wl_mem (wl_step s (.mark_bad p)) k q ↔ wl_mem s k q := by
  cases k with
  | erase_pending =>
    show q ∈ s.erase_pending.erase p ↔ q ∈ s.erase_pending
    simp [Finset.mem_erase, hqp]
  | bad =>
    show q ∈ insert p s.bad ↔ q ∈ s.bad
    simp [Finset.mem_insert, hqp]
  | free => exact Iff.rfl
  | used => exact Iff.rfl
  | scrub => exact Iff.rfl
  | erroneous => exact Iff.rfl
  | protect => exact Iff.rfl

/-- After `mark_bad p` on a wellformed state with `p` pending erase, the
location of `p` is exactly the bad population. -/
theorem mark_bad_mem_self (s : WlState) (p : Nat) (hwf : wl_wf s)
    (hpre : p ∈ s.erase_pending) (k : PebSet) :
    wl_mem (wl_step s (.mark_bad p)) k p ↔ k = PebSet.bad := by
  have hep : wl_mem s .erase_pending p := hpre
  cases k with
  | erase_pending =>
    show p ∈ s.erase_pending.erase p ↔ _
    simp
  | bad =>
    refine iff_of_true ?_ rfl
    show p ∈ insert p s.bad
    exact Finset.mem_insert_self p _
  | free =>
    refine iff_of_false ?_ (by simp)
    show ¬wl_mem s .free p
    exact wl_mem_ne_loc s hwf hep (by simp)
  | used =>
    refine iff_of_false ?_ (by simp)
    show ¬wl_mem s .used p
    exact wl_mem_ne_loc s hwf hep (by simp)
  | scrub =>
    refine iff_of_false ?_ (by simp)
    show ¬wl_mem s .scrub p
    exact wl_mem_ne_loc s hwf hep (by simp)
  | erroneous =>
    refine iff_of_false ?_ (by simp)
    show ¬wl_mem s .erroneous p
    exact wl_mem_ne_loc s hwf hep (by simp)
  | protect =>
    refine iff_of_false ?_ (by simp)
    show ¬wl_mem s .protect p
    exact wl_mem_ne_loc s hwf hep (by simp)

/-- `mark_bad` preserves the WL partition invariant. -/
theorem wl_wf_mark_bad (s : WlState) (p : Nat) (hwf : wl_wf s)
    (hpre : p ∈ s.erase_pending) : wl_wf (wl_step s (.mark_bad p)) := by
  refine ⟨?_, ?_, ?_, ?_⟩
  · intro q
    by_cases hqp : q = p
    · subst hqp
      exact iff_of_true ((hwf.1 q).mpr ⟨.erase_pending, hpre⟩)
        ⟨.bad, (mark_bad_mem_self s q hwf hpre .bad).mpr rfl⟩
    · constructor
      · intro hlt
        obtain ⟨k, hk⟩ := (hwf.1 q).mp hlt
        exact ⟨k, (mark_bad_mem_ne s p q hqp k).mpr hk⟩
      · rintro ⟨k, hk⟩
        exact (hwf.1 q).mpr ⟨k, (mark_bad_mem_ne s p q hqp k).mp hk⟩
  · intro q k k' h1 h2
    by_cases hqp : q = p
    · subst hqp
      rw [mark_bad_mem_self s q hwf hpre k] at h1
      rw [mark_bad_mem_self s q hwf hpre k'] at h2
      rw [h1, h2]
    · rw [mark_bad_mem_ne s p q hqp k] at h1
      rw [mark_bad_mem_ne s p q hqp k'] at h2
      exact hwf.2.1 q k k' h1 h2
  · exact hwf.2.2.1
  · exact hwf.2.2.2

/-- C2: at every reachable instant the PEB populations partition the
device: the invariant holds initially, every modelled WL transition (under
its precondition) preserves it, and under the invariant the populations
are pairwise disjoint, their union together with the bad PEBs is exactly
`[0, peb_count)`, and every PEB in range is in exactly one wear-leveling
state. -/
theorem wl_partition_exactly_one (n : Nat) (s : WlState) (op : WlOp) :
    wl_wf (wl_init n) ∧
    (wl_wf s → wl_pre s op → wl_wf (wl_step s op)) ∧
    (wl_wf s →
      (∀ k k', k ≠ k' → ∀ p, wl_mem s k p → ¬wl_mem s k' p) ∧
      (s.free ∪ s.used ∪ s.scrub ∪ s.erroneous ∪ s.protect ∪ s.erase_pending
          ∪ s.bad = Finset.range s.peb_count) ∧
      (∀ p, p < s.peb_count → ∃! k, wl_mem s k p)) := by
  refine ⟨wl_wf_init n, ?_, ?_⟩
  · intro hwf hpre
    cases op with
    | get_peb e => exact wl_wf_get_peb s e hwf hpre
    | tick => exact wl_wf_tick s hwf
    | put_peb p => exact wl_wf_put_peb s p hwf hpre
    | scrub_peb p => exact wl_wf_scrub_peb s p hwf hpre
    | erase_done p => exact wl_wf_erase_done s p hwf hpre
    | mark_bad p => exact wl_wf_mark_bad s p hwf hpre
  · intro hwf
    refine ⟨?_, ?_, ?_⟩
    · intro k k' hne p hk hk'
      exact hne (hwf.2.1 p k k' hk hk')
    · ext p
      simp only [Finset.mem_union, Finset.mem_range]
      constructor
      · intro h
        exact (hwf.1 p).mpr ((wl_mem_exists_iff s p).mpr (by tauto))
      · intro h
        have := (wl_mem_exists_iff s p).mp ((hwf.1 p).mp h)
        tauto
    · intro p hp
      obtain ⟨k, hk⟩ := (hwf.1 p).mp hp
      exact ⟨k, hk, fun k' hk' => hwf.2.1 p k' k hk' hk⟩

/-- Witness for C2: a one-PEB device stays wellformed across an
allocation, and its populations cover the range. -/
theorem wl_partition_exactly_one_witness :
    wl_wf (wl_step (wl_init 1) (WlOp.get_peb 0)) ∧
    ((wl_init 1).free ∪ (wl_init 1).used ∪ (wl_init 1).scrub ∪
      (wl_init 1).erroneous ∪ (wl_init 1).protect ∪
      (wl_init 1).erase_pending ∪ (wl_init 1).bad = Finset.range 1) := by
  have h := wl_partition_exactly_one 1 (wl_init 1) (WlOp.get_peb 0)
  refine ⟨h.2.1 (wl_wf_init 1) ?_, ?_⟩
  · show (0 : Nat) ∈ (wl_init 1).free
    simp [wl_init]
  · exact (h.2.2 (wl_wf_init 1)).2.1

/-- C7: a PEB that joins the protection queue is shielded for exactly
`UBI_PROT_QUEUE_LEN` global erase ticks.  Each tick advances `pq_head` by
one and drains exactly the one list at `pq_head` back into `used`; after a
freshly allocated PEB joins the queue tail, it stays protected (hence
ineligible as a WL source) and out of `used` for every number of ticks
below `UBI_PROT_QUEUE_LEN`, and after exactly `UBI_PROT_QUEUE_LEN` ticks
it is back in `used` and no longer protected. -/
theorem protection_queue_exact_ticks (s : WlState) (p : Nat)
    (hwf : wl_wf s) (hp : p ∈ s.free) :
    ((wl_tick s).pq_head = (s.pq_head + 1) % UBI_PROT_QUEUE_LEN) ∧
    ((wl_tick s).used = s.used ∪ s.pq s.pq_head) ∧
    (∀ k, k < UBI_PROT_QUEUE_LEN →
      p ∈ (wl_tick^[k] (wl_step s (.get_peb p))).protect ∧
      p ∉ (wl_tick^[k] (wl_step s (.get_peb p))).used) ∧
    p ∈ (wl_tick^[UBI_PROT_QUEUE_LEN] (wl_step s (.get_peb p))).used ∧
    p ∉ (wl_tick^[UBI_PROT_QUEUE_LEN] (wl_step s (.get_peb p))).protect := by
  have hhead10 : s.pq_head < 10 := hwf.2.2.2
  have htail : pq_tail s = (s.pq_head + 9) % 10 := rfl
  have hfree : wl_mem s .free p := hp
  have hnprot : ¬wl_mem s .protect p := wl_mem_ne_loc s hwf hfree (by simp)
  have hnused : ¬wl_mem s .used p := wl_mem_ne_loc s hwf hfree (by simp)
  set s₀ := wl_step s (.get_peb p) with hs₀def
  have hs₀head : s₀.pq_head = s.pq_head := rfl
  have hs₀slots : ∀ i, i < 10 → (p ∈ s₀.pq i ↔ i = pq_tail s) := by
    intro i hi
    show p ∈ Function.update s.pq (pq_tail s)
      (insert p (s.pq (pq_tail s))) i ↔ i = pq_tail s
    rw [Function.update_apply]
    by_cases hit : i = pq_tail s
    · rw [if_pos hit]
      simp [hit]
    · rw [if_neg hit]
      refine iff_of_false ?_ hit
      intro hm
      exact hnprot ((mem_protect_iff s p).mpr ⟨i, hi, hm⟩)
  have hs₀used : p ∉ s₀.used := hnused
  have aux : ∀ k, k < 10 →
      ((wl_tick^[k] s₀).pq_head = (s.pq_head + k) % 10 ∧
       (∀ i, i < 10 → (p ∈ (wl_tick^[k] s₀).pq i ↔ i = pq_tail s)) ∧
       p ∉ (wl_tick^[k] s₀).used) := by
    intro k
    induction k with
    | zero =>
      intro _
      refine ⟨?_, ?_, ?_⟩
      · show s₀.pq_head = (s.pq_head + 0) % 10
        rw [hs₀head]
        omega
      · show ∀ i, i < 10 → (p ∈ s₀.pq i ↔ i = pq_tail s)
        exact hs₀slots
      · show p ∉ s₀.used
        exact hs₀used
    | succ k ih =>
      intro hk1
      obtain ⟨ihh, ihs, ihu⟩ := ih (by omega)
      have hhlt : (wl_tick^[k] s₀).pq_head < 10 := by
        rw [ihh]
        omega
      have hslot_ne : (wl_tick^[k] s₀).pq_head ≠ pq_tail s := by
        rw [ihh, htail]
        omega
      rw [Function.iterate_succ_apply']
      refine ⟨?_, ?_, ?_⟩
      · show ((wl_tick^[k] s₀).pq_head + 1) % UBI_PROT_QUEUE_LEN
          = (s.pq_head + (k + 1)) % 10
        rw [ihh]
        simp only [UBI_PROT_QUEUE_LEN]
        omega
      · intro i hi
        show p ∈ Function.update (wl_tick^[k] s₀).pq
          (wl_tick^[k] s₀).pq_head ∅ i ↔ i = pq_tail s
        rw [Function.update_apply]
        by_cases hih : i = (wl_tick^[k] s₀).pq_head
        · subst hih
          rw [if_pos rfl]
          simp [hslot_ne]
        · rw [if_neg hih]
          exact ihs i hi
      · show p ∉ (wl_tick^[k] s₀).used ∪
          (wl_tick^[k] s₀).pq (wl_tick^[k] s₀).pq_head
        rw [Finset.mem_union]
        rintro (h | h)
        · exact ihu h
        · exact hslot_ne ((ihs _ hhlt).mp h)
  refine ⟨rfl, rfl, ?_, ?_, ?_⟩
  · intro k hk
    obtain ⟨-, hslots, hused⟩ := aux k hk
    refine ⟨?_, hused⟩
    exact (mem_protect_iff _ p).mpr
      ⟨pq_tail s, pq_tail_lt s, (hslots (pq_tail s) (pq_tail_lt s)).mpr rfl⟩
  · obtain ⟨ihh, ihs, -⟩ := aux 9 (by norm_num)
    have h9head : (wl_tick^[9] s₀).pq_head = pq_tail s := by
      rw [ihh, htail]
    rw [show UBI_PROT_QUEUE_LEN = 9 + 1 from rfl, Function.iterate_succ_apply']
    show p ∈ (wl_tick^[9] s₀).used ∪
      (wl_tick^[9] s₀).pq (wl_tick^[9] s₀).pq_head
    refine Finset.mem_union_right _ ?_
    rw [h9head]
    exact (ihs (pq_tail s) (pq_tail_lt s)).mpr rfl
  · obtain ⟨ihh, ihs, -⟩ := aux 9 (by norm_num)
    have h9head : (wl_tick^[9] s₀).pq_head = pq_tail s := by
      rw [ihh, htail]
    rw [show UBI_PROT_QUEUE_LEN = 9 + 1 from rfl, Function.iterate_succ_apply']
    rw [show (p ∈ (wl_tick (wl_tick^[9] s₀)).protect) = _ from
      propext (tick_protect_iff (wl_tick^[9] s₀) p)]
    rintro ⟨i, hi, hne, hm⟩
    have : i = pq_tail s := (ihs i hi).mp hm
    rw [this, ← h9head] at hne
    exact hne rfl

/-- Witness for C7: on a one-PEB device, PEB 0 freshly allocated is still
protected and unused after 3 ticks and back in `used` after exactly
`UBI_PROT_QUEUE_LEN` ticks. -/
theorem protection_queue_exact_ticks_witness :
    0 ∈ (wl_tick^[3] (wl_step (wl_init 1) (.get_peb 0))).protect ∧
    0 ∉ (wl_tick^[3] (wl_step (wl_init 1) (.get_peb 0))).used ∧
    0 ∈ (wl_tick^[UBI_PROT_QUEUE_LEN]
      (wl_step (wl_init 1) (.get_peb 0))).used ∧
    0 ∉ (wl_tick^[UBI_PROT_QUEUE_LEN]
      (wl_step (wl_init 1) (.get_peb 0))).protect := by
  have h := protection_queue_exact_ticks (wl_init 1) 0 (wl_wf_init 1)
    (by show (0 : Nat) ∈ (wl_init 1).free; simp [wl_init])
  have h3 := h.2.2.1 3 (by norm_num [UBI_PROT_QUEUE_LEN])
  exact ⟨h3.1, h3.2, h.2.2.2.1, h.2.2.2.2⟩

end Ubi
